import Mathlib

/-!
Verification of the conversation-segmentation and message-classification
core of the Discord export/archive scripts, together with the signature
check of the Notion webhook handler.

Modelling conventions:
- JavaScript strings are modelled as `List Char` (one entry per code point).
- `String.prototype.includes` is modelled by `jsIncludes`, and
  `String.prototype.toLowerCase` by mapping `Char.toLower` over the list.
- Timestamps (JS `Date` values, compared and subtracted as milliseconds)
  are modelled as `Int`.
- The in-place `Array.prototype.sort` with comparator
  `(a, b) => a.timestamp - b.timestamp` is a stable sort consistent with
  the total preorder on timestamps; a stable sort for a total preorder is
  extensionally unique, so it is modelled by `List.insertionSort` (which
  is stable).
-/

/-- Model of the JavaScript test that `needle` is a prefix of `hay`. -/
def jsStartsWith : List Char → List Char → Bool
  | _, [] => true
  | [], _ :: _ => false
  | c :: cs, d :: ds => c == d && jsStartsWith cs ds

/-- Model of `hay.includes(needle)` on JavaScript strings: true when
`needle` occurs contiguously inside `hay` (the empty needle always
occurs). -/
def jsIncludes : List Char → List Char → Bool
  | [], needle => needle.isEmpty
  | c :: cs, needle => jsStartsWith (c :: cs) needle || jsIncludes cs needle

/-- Model of `s.toLowerCase()`: lower-case every character. -/
def toLowerStr (s : List Char) : List Char :=
  s.map Char.toLower

/-- A classification rule: a tag label paired with its keyword list.
`TAG_RULES` in the source is an object literal; `Object.entries` yields
its pairs in insertion (textual) order, so the table is an ordered list. -/
abbrev TagRule := String × List (List Char)

/-- Does a rule match? `keywords.some(keyword => lowerContent.includes(keyword))`
from `classifyMessage`: the keyword is used verbatim, only the content was
lower-cased by the caller. -/
def ruleMatches (keywords : List (List Char)) (lowerContent : List Char) : Bool :=
  keywords.any (fun k => jsIncludes lowerContent k)

/-- Walk a rule table in order and return the label of the first rule
that matches; the sentinel label if none does. This is the loop body of
`classifyMessage`, parameterised by the table. -/
def classifyWith (rules : List TagRule) (content : List Char) : String :=
  let lowerContent := toLowerStr content
  match rules.find? (fun r => ruleMatches r.2 lowerContent) with
  | some r => r.1
  | none => "Uncategorized"

/-- The tag classification table `TAG_RULES` from the source, in the
textual order of the object literal. -/
def TAG_RULES : List TagRule :=
  [ ("NetSuite/P21", ["netsuite".toList, "p21".toList, "erp".toList, "integration".toList])
  , ("Business", ["meeting".toList, "strategy".toList, "planning".toList, "budget".toList])
  , ("Development", ["code".toList, "github".toList, "deploy".toList, "bug".toList, "feature".toList])
  , ("Tools", ["notion".toList, "discord".toList, "chatgpt".toList, "claude".toList, "shareX".toList])
  , ("Vegas/MGM", ["vegas".toList, "mgm".toList, "conference".toList, "travel".toList])
  , ("Family", ["family".toList, "personal".toList, "vacation".toList])
  , ("Tech/Hardware", ["server".toList, "hardware".toList, "network".toList, "setup".toList])
  ]

/-- The function `classifyMessage(content)` from the source. -/
def classifyMessage (content : List Char) : String :=
  classifyWith TAG_RULES content

/-- The rule table with the upper-case keyword removed from the Tools
rule, used to state that this keyword is dead: only the text side of the
comparison is lower-cased, so a keyword holding an upper-case letter can
never occur in it. -/
def TAG_RULES_trimmed : List TagRule :=
  [ ("NetSuite/P21", ["netsuite".toList, "p21".toList, "erp".toList, "integration".toList])
  , ("Business", ["meeting".toList, "strategy".toList, "planning".toList, "budget".toList])
  , ("Development", ["code".toList, "github".toList, "deploy".toList, "bug".toList, "feature".toList])
  , ("Tools", ["notion".toList, "discord".toList, "chatgpt".toList, "claude".toList])
  , ("Vegas/MGM", ["vegas".toList, "mgm".toList, "conference".toList, "travel".toList])
  , ("Family", ["family".toList, "personal".toList, "vacation".toList])
  , ("Tech/Hardware", ["server".toList, "hardware".toList, "network".toList, "setup".toList])
  ]

/-- A message record as built by `exportChannelToMarkdown`: the fields
`groupIntoConversations` reads. In the export pipeline the `tag` field is
set to `classifyMessage` of the content. -/
structure Msg where
  id : String
  author : String
  content : List Char
  timestamp : Int
  attachments : List String
  tag : String
deriving DecidableEq, Repr

/-- A conversation object as built inside `groupIntoConversations`.
`participants` and `tags` are JS `Set`s converted at the end with
`Array.from`, which yields insertion order; they are modelled as
duplicate-free lists built in insertion order. -/
structure Conversation where
  title : List Char
  messages : List Msg
  participants : List String
  tags : List String
deriving DecidableEq, Repr

/-- Adding an element to a JS `Set`, viewed through the insertion-ordered
list that `Array.from` eventually produces. -/
def addUnique [DecidableEq α] (x : α) (xs : List α) : List α :=
  if x ∈ xs then xs else xs ++ [x]

/-- The conversation object created when a new conversation starts at
message `m`: title is the first 50 characters of the content of `m` plus
an unconditional ellipsis, and the member lists start empty. -/
def newConv (m : Msg) : Conversation :=
  { title := m.content.take 50 ++ "...".toList
  , messages := []
  , participants := []
  , tags := [] }

/-- The loop body of `groupIntoConversations` acting on the current
conversation: push the message and add its author and tag to the sets. -/
def pushMsg (c : Conversation) (m : Msg) : Conversation :=
  { c with
    messages := c.messages ++ [m]
  , participants := addUnique m.author c.participants
  , tags := addUnique m.tag c.tags }

/-- Timestamp of `currentConv.messages[currentConv.messages.length - 1]`;
the default is irrelevant because the current conversation always holds at
least one message. -/
def lastTs (c : Conversation) : Int :=
  ((c.messages.getLast?).map Msg.timestamp).getD 0

/-- Timestamp of the first message of a conversation. -/
def firstTs (c : Conversation) : Int :=
  ((c.messages.head?).map Msg.timestamp).getD 0

/-- The gap constant of the source: `30 * 60 * 1000` milliseconds. -/
def gapMs : Int := 30 * 60 * 1000

/-- The scan of `groupIntoConversations` once a current conversation
exists: a message starts a new conversation exactly when its timestamp
exceeds the last timestamp of the current conversation by strictly more
than the gap; otherwise it is appended to the current conversation.
Finished conversations are emitted in order and the current one is
flushed at the end of the input. -/
def segLoop (gap : Int) (cur : Conversation) : List Msg → List Conversation
  | [] => [cur]
  | m :: rest =>
    if gap < m.timestamp - lastTs cur then
      cur :: segLoop gap (pushMsg (newConv m) m) rest
    else
      segLoop gap (pushMsg cur m) rest

/-- Gap-based segmentation of a message sequence (the loop of
`groupIntoConversations` after the sort, with the gap as a parameter). -/
def segmentMsgs (gap : Int) : List Msg → List Conversation
  | [] => []
  | m :: rest => segLoop gap (pushMsg (newConv m) m) rest

/-- Ordering of messages by ascending timestamp, the total preorder
induced by the comparator `(a, b) => a.timestamp - b.timestamp`. -/
def tsLe (a b : Msg) : Prop := a.timestamp ≤ b.timestamp

instance : DecidableRel tsLe := fun a b => inferInstanceAs (Decidable (a.timestamp ≤ b.timestamp))

instance : IsTotal Msg tsLe := ⟨fun a b => Int.le_total a.timestamp b.timestamp⟩

instance : IsTrans Msg tsLe := ⟨fun _ _ _ h h2 => le_trans h h2⟩

/-- The input sequence is sorted ascending by timestamp. -/
def SortedByTs (msgs : List Msg) : Prop := List.Sorted tsLe msgs

instance (msgs : List Msg) : Decidable (SortedByTs msgs) :=
  inferInstanceAs (Decidable (List.Pairwise tsLe msgs))

/-- The stable in-place sort `messages.sort((a, b) => a.timestamp - b.timestamp)`. -/
def sortByTs (msgs : List Msg) : List Msg := List.insertionSort tsLe msgs

/-- The function `groupIntoConversations(messages)` observed together with
its frame effect: the first component is the content of the caller array
after the call (the sort happens in place), the second the returned
conversation list. -/
def groupIntoConversationsRun (msgs : List Msg) : List Msg × List Conversation :=
  (sortByTs msgs, segmentMsgs gapMs (sortByTs msgs))

/-- The return value of `groupIntoConversations(messages)`. -/
def groupIntoConversations (msgs : List Msg) : List Conversation :=
  (groupIntoConversationsRun msgs).2

/-- Concatenation of the message lists of a conversation sequence, in
order. -/
def concatMessages (cs : List Conversation) : List Msg :=
  cs.flatMap Conversation.messages

/-- Sample messages for concrete checks. -/
def mkMsg (i : Nat) (a : String) (s : String) (t : Int) (tg : String) : Msg :=
  { id := toString i, author := a, content := s.toList, timestamp := t
  , attachments := [], tag := tg }

/-- The single conversation produced from one message with empty text:
the title is exactly the ellipsis. -/
def sampleConv : Conversation :=
  { title := "...".toList
  , messages := [mkMsg 0 "ann" "" 0 "Uncategorized"]
  , participants := ["ann"]
  , tags := ["Uncategorized"] }

/-- Modelled from the words of the claim for comparison with the code:
case-insensitive occurrence of a keyword in a text, where both sides are
lower-cased before the substring test. -/
def ciOccurs (keyword text : List Char) : Bool :=
  jsIncludes (toLowerStr text) (toLowerStr keyword)

/-- Response of the webhook endpoint, as far as the signature logic is
concerned: the HTTP status sent back, and whether the payload was
forwarded to the Discord webhook URL (the `axios.post` call ran). The
model treats the forward call as succeeding, so the success path answers
200. -/
structure WebhookResponse where
  status : Nat
  forwarded : Bool
deriving DecidableEq, Repr

/-- The function `verifyNotionSignature(payload, signature)`: compare the
hex HMAC-SHA256 digest of the serialised payload under the configured
secret with the given signature. The digest primitive and the JSON
serialiser are abstract parameters of the model. -/
def verifyNotionSignature (hmacSha256Hex : String → String → String)
    (stringify : P → String) (secret : String) (payload : P) (signature : String) : Bool :=
  hmacSha256Hex secret (stringify payload) == signature

/-- The `/notion-webhook` POST handler: read the `x-notion-signature`
header (`none` when absent); `if (signature && !verifyNotionSignature(...))`
answer 401 without forwarding — a missing header, and likewise an
empty-string header value (both falsy in JS), skip the check; otherwise
format and forward the payload and answer 200. -/
def handleNotionWebhook (hmacSha256Hex : String → String → String)
    (stringify : P → String) (secret : String) (payload : P)
    (sigHeader : Option String) : WebhookResponse :=
  match sigHeader with
  | none => { status := 200, forwarded := true }
  | some sig =>
    if sig ≠ "" ∧ verifyNotionSignature hmacSha256Hex stringify secret payload sig = false then
      { status := 401, forwarded := false }
    else
      { status := 200, forwarded := true }

theorem messages_pushMsg (c : Conversation) (m : Msg) :
    (pushMsg c m).messages = c.messages ++ [m] := rfl

theorem title_pushMsg (c : Conversation) (m : Msg) :
    (pushMsg c m).title = c.title := rfl

theorem lastTs_pushMsg (c : Conversation) (m : Msg) :
    lastTs (pushMsg c m) = m.timestamp := by
  simp [lastTs, pushMsg]

theorem messages_pushMsg_newConv (m : Msg) :
    (pushMsg (newConv m) m).messages = [m] := rfl

theorem firstTs_pushMsg (c : Conversation) (m : Msg) (h : c.messages ≠ []) :
    firstTs (pushMsg c m) = firstTs c := by
  simp [firstTs, pushMsg, List.head?_append_of_ne_nil _ h]

theorem firstTs_pushMsg_newConv (m : Msg) :
    firstTs (pushMsg (newConv m) m) = m.timestamp := rfl

theorem concatMessages_cons (c : Conversation) (cs : List Conversation) :
    concatMessages (c :: cs) = c.messages ++ concatMessages cs := rfl

theorem segLoop_join (gap : Int) (rest : List Msg) : ∀ (cur : Conversation),
    concatMessages (segLoop gap cur rest) = cur.messages ++ rest := by
  induction rest with
  | nil => intro cur; simp [segLoop, concatMessages]
  | cons m rest ih =>
    intro cur
    simp only [segLoop]
    by_cases h : gap < m.timestamp - lastTs cur
    · rw [if_pos h, concatMessages_cons, ih, messages_pushMsg_newConv]
      simp
    · rw [if_neg h, ih, messages_pushMsg, List.append_assoc]
      rfl

theorem segmentMsgs_join (gap : Int) (msgs : List Msg) :
    concatMessages (segmentMsgs gap msgs) = msgs := by
  cases msgs with
  | nil => rfl
  | cons m rest =>
    simp only [segmentMsgs]
    rw [segLoop_join, messages_pushMsg_newConv]
    simp

theorem segLoop_invariant (gap : Int) (P : Conversation → Prop)
    (hstart : ∀ m : Msg, P (pushMsg (newConv m) m))
    (hpush : ∀ (c : Conversation) (m : Msg),
      P c → ¬ gap < m.timestamp - lastTs c → P (pushMsg c m)) :
    ∀ (rest : List Msg) (cur : Conversation), P cur →
      ∀ c ∈ segLoop gap cur rest, P c := by
  intro rest
  induction rest with
  | nil =>
    intro cur hcur c hc
    simp [segLoop] at hc
    exact hc ▸ hcur
  | cons m rest ih =>
    intro cur hcur c hc
    simp only [segLoop] at hc
    by_cases h : gap < m.timestamp - lastTs cur
    · rw [if_pos h] at hc
      rcases List.mem_cons.mp hc with h1 | h2
      · exact h1 ▸ hcur
      · exact ih _ (hstart m) c h2
    · rw [if_neg h] at hc
      exact ih _ (hpush cur m hcur h) c hc

theorem segmentMsgs_invariant (gap : Int) (P : Conversation → Prop)
    (hstart : ∀ m : Msg, P (pushMsg (newConv m) m))
    (hpush : ∀ (c : Conversation) (m : Msg),
      P c → ¬ gap < m.timestamp - lastTs c → P (pushMsg c m)) :
    ∀ (msgs : List Msg), ∀ c ∈ segmentMsgs gap msgs, P c := by
  intro msgs c hc
  cases msgs with
  | nil => simp [segmentMsgs] at hc
  | cons m rest =>
    exact segLoop_invariant gap P hstart hpush rest _ (hstart m) c hc

theorem segLoop_head (gap : Int) (rest : List Msg) : ∀ (cur : Conversation),
    ∃ c0 tl, segLoop gap cur rest = c0 :: tl ∧
      (cur.messages ≠ [] → firstTs c0 = firstTs cur) := by
  induction rest with
  | nil =>
    intro cur
    exact ⟨cur, [], rfl, fun _ => rfl⟩
  | cons m rest ih =>
    intro cur
    simp only [segLoop]
    by_cases h : gap < m.timestamp - lastTs cur
    · rw [if_pos h]
      exact ⟨cur, _, rfl, fun _ => rfl⟩
    · rw [if_neg h]
      obtain ⟨c0, tl, heq, hfi⟩ := ih (pushMsg cur m)
      refine ⟨c0, tl, heq, fun hne => ?_⟩
      rw [hfi (by simp [messages_pushMsg]), firstTs_pushMsg cur m hne]

theorem segLoop_boundary (gap : Int) (rest : List Msg) : ∀ (cur : Conversation),
    cur.messages ≠ [] →
      List.Chain' (fun a b => gap < firstTs b - lastTs a) (segLoop gap cur rest) := by
  induction rest with
  | nil =>
    intro cur _
    simp [segLoop]
  | cons m rest ih =>
    intro cur hne
    simp only [segLoop]
    by_cases h : gap < m.timestamp - lastTs cur
    · rw [if_pos h]
      obtain ⟨c0, tl, heq, hfi⟩ := segLoop_head gap rest (pushMsg (newConv m) m)
      rw [heq]
      refine List.Chain'.cons ?_ (heq ▸ ih _ (by simp [messages_pushMsg_newConv]))
      rw [hfi (by simp [messages_pushMsg_newConv]), firstTs_pushMsg_newConv]
      exact h
    · rw [if_neg h]
      exact ih _ (by simp [messages_pushMsg])

theorem segmentMsgs_boundary (gap : Int) (msgs : List Msg) :
    List.Chain' (fun a b => gap < firstTs b - lastTs a) (segmentMsgs gap msgs) := by
  cases msgs with
  | nil => simp [segmentMsgs]
  | cons m rest =>
    exact segLoop_boundary gap rest _ (by simp [messages_pushMsg_newConv])

theorem mem_addUnique [DecidableEq α] (a x : α) (xs : List α) :
    x ∈ addUnique a xs ↔ x = a ∨ x ∈ xs := by
  by_cases h : a ∈ xs
  · simp only [addUnique, if_pos h]
    constructor
    · exact Or.inr
    · rintro (rfl | hx)
      · exact h
      · exact hx
  · simp [addUnique, if_neg h, or_comm]

theorem nodup_addUnique [DecidableEq α] (a : α) (xs : List α) (h : xs.Nodup) :
    (addUnique a xs).Nodup := by
  by_cases ha : a ∈ xs
  · simpa [addUnique, if_pos ha] using h
  · rw [addUnique, if_neg ha, List.nodup_append]
    exact ⟨h, List.nodup_singleton a,
      fun x hx hxa => ha ((List.mem_singleton.mp hxa) ▸ hx)⟩

theorem segmentMsgs_within (gap : Int) (msgs : List Msg) :
    ∀ c ∈ segmentMsgs gap msgs,
      List.Chain' (fun a b => b.timestamp - a.timestamp ≤ gap) c.messages := by
  refine segmentMsgs_invariant gap _ ?_ ?_ msgs
  · intro m
    simp [messages_pushMsg_newConv]
  · intro c m hc hle
    rw [messages_pushMsg, List.chain'_append]
    refine ⟨hc, by simp, ?_⟩
    intro x hx y hy
    simp only [List.head?_cons, Option.mem_some_iff] at hy
    subst hy
    have hx2 : c.messages.getLast? = some x := hx
    have : lastTs c = x.timestamp := by simp [lastTs, hx2]
    omega

theorem segmentMsgs_titles (gap : Int) (msgs : List Msg) :
    ∀ c ∈ segmentMsgs gap msgs,
      ∃ m0, c.messages.head? = some m0 ∧
        c.title = m0.content.take 50 ++ "...".toList := by
  refine segmentMsgs_invariant gap _ ?_ ?_ msgs
  · intro m
    exact ⟨m, rfl, rfl⟩
  · intro c m hc _
    obtain ⟨m0, hh, ht⟩ := hc
    refine ⟨m0, ?_, ht⟩
    rw [messages_pushMsg, List.head?_append_of_ne_nil _ (by intro h0; rw [h0] at hh; cases hh)]
    exact hh

theorem segmentMsgs_sets (gap : Int) (msgs : List Msg) :
    ∀ c ∈ segmentMsgs gap msgs,
      c.participants.Nodup ∧ (∀ a, a ∈ c.participants ↔ ∃ m ∈ c.messages, m.author = a) ∧
        c.tags.Nodup ∧ (∀ l, l ∈ c.tags ↔ ∃ m ∈ c.messages, m.tag = l) := by
  refine segmentMsgs_invariant gap _ ?_ ?_ msgs
  · intro m
    refine ⟨?_, ?_, ?_, ?_⟩ <;> simp [pushMsg, newConv, addUnique, eq_comm]
  · intro c m hc _
    obtain ⟨hp, hpm, ht, htm⟩ := hc
    refine ⟨nodup_addUnique _ _ hp, ?_, nodup_addUnique _ _ ht, ?_⟩
    · intro a
      rw [show (pushMsg c m).participants = addUnique m.author c.participants from rfl,
        mem_addUnique, hpm a, messages_pushMsg]
      constructor
      · rintro (rfl | ⟨x, hx, rfl⟩)
        · exact ⟨m, by simp, rfl⟩
        · exact ⟨x, by simp [hx], rfl⟩
      · rintro ⟨x, hx, rfl⟩
        rcases List.mem_append.mp hx with h1 | h2
        · exact Or.inr ⟨x, h1, rfl⟩
        · have hxm : x = m := by simpa using h2
          exact Or.inl (by rw [hxm])
    · intro l
      rw [show (pushMsg c m).tags = addUnique m.tag c.tags from rfl,
        mem_addUnique, htm l, messages_pushMsg]
      constructor
      · rintro (rfl | ⟨x, hx, rfl⟩)
        · exact ⟨m, by simp, rfl⟩
        · exact ⟨x, by simp [hx], rfl⟩
      · rintro ⟨x, hx, rfl⟩
        rcases List.mem_append.mp hx with h1 | h2
        · exact Or.inr ⟨x, h1, rfl⟩
        · have hxm : x = m := by simpa using h2
          exact Or.inl (by rw [hxm])

theorem jsStartsWith_mem : ∀ (hay needle : List Char),
    jsStartsWith hay needle = true → ∀ c ∈ needle, c ∈ hay := by
  intro hay
  induction hay with
  | nil =>
    intro needle h c hc
    cases needle with
    | nil => cases hc
    | cons d ds => simp [jsStartsWith] at h
  | cons a as ih =>
    intro needle h c hc
    cases needle with
    | nil => cases hc
    | cons d ds =>
      simp only [jsStartsWith, Bool.and_eq_true, beq_iff_eq] at h
      obtain ⟨rfl, h2⟩ := h
      rcases List.mem_cons.mp hc with rfl | hc2
      · exact List.mem_cons_self _ _
      · exact List.mem_cons_of_mem _ (ih ds h2 c hc2)

theorem jsIncludes_mem : ∀ (hay needle : List Char),
    jsIncludes hay needle = true → ∀ c ∈ needle, c ∈ hay := by
  intro hay
  induction hay with
  | nil =>
    intro needle h c hc
    cases needle with
    | nil => cases hc
    | cons d ds => simp [jsIncludes] at h
  | cons a as ih =>
    intro needle h c hc
    simp only [jsIncludes, Bool.or_eq_true] at h
    rcases h with h | h
    · exact jsStartsWith_mem _ _ h c hc
    · exact List.mem_cons_of_mem _ (ih needle h c hc)

theorem char_toNat_ofNat (n : Nat) (h : n.isValidChar) : (Char.ofNat n).toNat = n := by
  rw [Char.ofNat, dif_pos h]
  simp [Char.ofNatAux, Char.toNat, UInt32.toNat, BitVec.toNat_ofNatLt]

theorem toLower_ne_upper_X (c : Char) : c.toLower ≠ 'X' := by
  intro hX
  simp only [Char.toLower] at hX
  by_cases h : c.toNat ≥ 65 ∧ c.toNat ≤ 90
  · rw [if_pos h] at hX
    have hv : (c.toNat + 32).isValidChar := Or.inl (by omega)
    have h2 := char_toNat_ofNat _ hv
    rw [hX] at h2
    have h3 : (88 : Nat) = c.toNat + 32 := by simpa using h2
    omega
  · rw [if_neg h] at hX
    rw [hX] at h
    exact h (by decide)

theorem sharex_never_matches (s : List Char) :
    jsIncludes (toLowerStr s) ("shareX".toList) = false := by
  by_contra h
  rw [Bool.not_eq_false] at h
  have hX : 'X' ∈ toLowerStr s := jsIncludes_mem _ _ h 'X' (by decide)
  obtain ⟨c, _, hc⟩ := List.mem_map.mp hX
  exact toLower_ne_upper_X c hc

theorem classifyWith_first (content : List Char) (pre post : List TagRule) (r : TagRule)
    (hpre : ∀ r' ∈ pre, ruleMatches r'.2 (toLowerStr content) = false)
    (hr : ruleMatches r.2 (toLowerStr content) = true) :
    classifyWith (pre ++ r :: post) content = r.1 := by
  have hfind : (pre ++ r :: post).find? (fun q => ruleMatches q.2 (toLowerStr content))
      = some r := by
    induction pre with
    | nil => exact List.find?_cons_of_pos _ hr
    | cons p pre ih =>
      rw [List.cons_append, List.find?_cons_of_neg, ih]
      · intro r' h
        exact hpre r' (List.mem_cons_of_mem p h)
      · simp [hpre p (List.mem_cons_self p pre)]
  simp only [classifyWith, hfind]

theorem classifyWith_eq_sentinel (rules : List TagRule) (content : List Char)
    (hlab : ∀ q ∈ rules, q.1 ≠ "Uncategorized") :
    classifyWith rules content = "Uncategorized" ↔
      ∀ q ∈ rules, ruleMatches q.2 (toLowerStr content) = false := by
  simp only [classifyWith]
  cases hf : rules.find? (fun q => ruleMatches q.2 (toLowerStr content)) with
  | none =>
    simp only []
    constructor
    · intro _ q hq
      have := List.find?_eq_none.mp hf q hq
      simpa using this
    · intro _
      trivial
  | some q =>
    simp only []
    constructor
    · intro h
      exact absurd h (hlab q (List.mem_of_find?_eq_some hf))
    · intro hall
      have hp := List.find?_some hf
      rw [hall q (List.mem_of_find?_eq_some hf)] at hp
      cases hp


theorem classifyWith_congr (content : List Char) : ∀ (rs1 rs2 : List TagRule),
    List.Forall₂ (fun p q => p.1 = q.1 ∧
      ruleMatches p.2 (toLowerStr content) = ruleMatches q.2 (toLowerStr content)) rs1 rs2 →
    classifyWith rs1 content = classifyWith rs2 content := by
  intro rs1
  induction rs1 with
  | nil =>
    intro rs2 h
    cases h
    rfl
  | cons p l1 ih =>
    intro rs2 h
    cases h with
    | cons hpq htl =>
      obtain ⟨hl, hm⟩ := hpq
      simp only [classifyWith, List.find?, ← hm]
      cases hb : ruleMatches p.2 (toLowerStr content)
      · simpa [classifyWith] using ih _ htl
      · simpa using hl

theorem classifyMessage_trimmed (content : List Char) :
    classifyMessage content = classifyWith TAG_RULES_trimmed content := by
  have hsx : jsIncludes (toLowerStr content) ['s', 'h', 'a', 'r', 'e', 'X'] = false :=
    sharex_never_matches content
  show classifyWith TAG_RULES content = _
  refine classifyWith_congr content TAG_RULES TAG_RULES_trimmed ?_
  simp [TAG_RULES, TAG_RULES_trimmed, List.forall₂_cons, ruleMatches, hsx]

/-- C1: for every non-empty sequence of items sorted ascending by
timestamp, concatenating the message lists of the groups returned by
`groupIntoConversations`, in group order, yields exactly the original
sequence: no item lost, none duplicated, order unchanged. -/
theorem C1_segmentation_preserves_items (msgs : List Msg)
    (_hne : msgs ≠ []) (hs : SortedByTs msgs) :
    concatMessages (groupIntoConversations msgs) = msgs := by
  have hsort : sortByTs msgs = msgs := List.Sorted.insertionSort_eq hs
  show concatMessages (segmentMsgs gapMs (sortByTs msgs)) = msgs
  rw [hsort]
  exact segmentMsgs_join gapMs msgs

theorem C1_segmentation_preserves_items_witness :
    ([mkMsg 0 "ann" "hi" 0 "Uncategorized", mkMsg 1 "bob" "yo" 60000 "Uncategorized"]
        ≠ ([] : List Msg)) ∧
    SortedByTs [mkMsg 0 "ann" "hi" 0 "Uncategorized", mkMsg 1 "bob" "yo" 60000 "Uncategorized"] ∧
    concatMessages (groupIntoConversations
        [mkMsg 0 "ann" "hi" 0 "Uncategorized", mkMsg 1 "bob" "yo" 60000 "Uncategorized"]) =
      [mkMsg 0 "ann" "hi" 0 "Uncategorized", mkMsg 1 "bob" "yo" 60000 "Uncategorized"] :=
  ⟨by decide, by decide,
    C1_segmentation_preserves_items
      [mkMsg 0 "ann" "hi" 0 "Uncategorized", mkMsg 1 "bob" "yo" 60000 "Uncategorized"]
      (by decide) (by decide)⟩

/-- C2: for every sequence sorted ascending by timestamp and positive gap
threshold, inside each group of the segmentation every item after the
first follows its predecessor by at most the gap, at every boundary
between consecutive groups the elapsed time is strictly greater than the
gap, and boundary timestamps strictly increase — so two consecutive items
with identical timestamps are never split into different groups. -/
theorem C2_gap_invariants (gap : Int) (msgs : List Msg)
    (hgap : 0 < gap) (_hs : SortedByTs msgs) :
    (∀ c ∈ segmentMsgs gap msgs,
      List.Chain' (fun a b => b.timestamp - a.timestamp ≤ gap) c.messages) ∧
    List.Chain' (fun c d => gap < firstTs d - lastTs c) (segmentMsgs gap msgs) ∧
    List.Chain' (fun c d => lastTs c < firstTs d) (segmentMsgs gap msgs) := by
  refine ⟨segmentMsgs_within gap msgs, segmentMsgs_boundary gap msgs, ?_⟩
  exact (segmentMsgs_boundary gap msgs).imp (fun a b h => by omega)

theorem C2_gap_invariants_witness :
    (0 : Int) < 1 ∧
    SortedByTs [mkMsg 0 "ann" "a" 5 "Uncategorized", mkMsg 1 "bob" "b" 5 "Uncategorized"] ∧
    ((∀ c ∈ segmentMsgs 1 [mkMsg 0 "ann" "a" 5 "Uncategorized", mkMsg 1 "bob" "b" 5 "Uncategorized"],
        List.Chain' (fun a b => b.timestamp - a.timestamp ≤ 1) c.messages) ∧
      List.Chain' (fun c d => 1 < firstTs d - lastTs c)
        (segmentMsgs 1 [mkMsg 0 "ann" "a" 5 "Uncategorized", mkMsg 1 "bob" "b" 5 "Uncategorized"]) ∧
      List.Chain' (fun c d => lastTs c < firstTs d)
        (segmentMsgs 1 [mkMsg 0 "ann" "a" 5 "Uncategorized", mkMsg 1 "bob" "b" 5 "Uncategorized"])) :=
  ⟨by decide, by decide,
    C2_gap_invariants 1 [mkMsg 0 "ann" "a" 5 "Uncategorized", mkMsg 1 "bob" "b" 5 "Uncategorized"]
      (by decide) (by decide)⟩

/-- C3: the classifier walks the rule table in order with
first-match-wins: whenever the table splits as `pre ++ r :: post`, no rule
of `pre` matches, and `r` matches, the classifier returns the label of
`r`, whatever the rules of `post` do. -/
theorem C3_first_match_wins (content : List Char) (pre post : List TagRule) (r : TagRule)
    (hpre : ∀ q ∈ pre, ruleMatches q.2 (toLowerStr content) = false)
    (hr : ruleMatches r.2 (toLowerStr content) = true) :
    classifyWith (pre ++ r :: post) content = r.1 :=
  classifyWith_first content pre post r hpre hr

theorem C3_first_match_wins_witness :
    (∀ q ∈ ([] : List TagRule), ruleMatches q.2 (toLowerStr "x y".toList) = false) ∧
    ruleMatches (("A", ["x".toList]) : TagRule).2 (toLowerStr "x y".toList) = true ∧
    classifyWith (("A", ["x".toList]) :: [("B", ["x".toList, "y".toList])]) "x y".toList = "A" :=
  ⟨by decide, by decide,
    C3_first_match_wins "x y".toList [] [("B", ["x".toList, "y".toList])]
      ("A", ["x".toList]) (by decide) (by decide)⟩

/-- C4 counterexample: the keyword written "shareX" in the Tools rule
occurs case-insensitively in the text "ShareX", and the Tools rule is in
the table, yet the classifier returns the sentinel instead of "Tools" —
so matching is not case-insensitive with respect to keyword spelling, and
the case in which a keyword is written does affect whether it matches. -/
theorem C4_counterexample :
    ciOccurs "shareX".toList "ShareX".toList = true ∧
    (("Tools", ["notion".toList, "discord".toList, "chatgpt".toList, "claude".toList,
      "shareX".toList]) : TagRule) ∈ TAG_RULES ∧
    classifyMessage "ShareX".toList = "Uncategorized" :=
  ⟨by decide, by decide, by decide⟩

/-- C4 amended: only the text is lower-cased, keywords are compared
verbatim, so a keyword holding an upper-case letter never matches any
text: the keyword written "shareX" matches no content at all, and
removing it from the Tools rule leaves the classifier unchanged on every
input. -/
theorem C4_keyword_case_matters (content : List Char) :
    jsIncludes (toLowerStr content) "shareX".toList = false ∧
    classifyMessage content = classifyWith TAG_RULES_trimmed content :=
  ⟨sharex_never_matches content, classifyMessage_trimmed content⟩

/-- C5: every group produced by the segmenter has a first message, and
its title is the first 50 characters of that message text with the
ellipsis appended unconditionally — also when the text is shorter than 50
characters, so a group starting from an empty text is titled exactly by
the ellipsis. -/
theorem C5_group_titles (gap : Int) (msgs : List Msg) (c : Conversation)
    (hc : c ∈ segmentMsgs gap msgs) :
    ∃ m, c.messages.head? = some m ∧ c.title = m.content.take 50 ++ "...".toList :=
  segmentMsgs_titles gap msgs c hc

theorem C5_group_titles_witness :
    sampleConv ∈ segmentMsgs gapMs [mkMsg 0 "ann" "" 0 "Uncategorized"] ∧
    ∃ m, sampleConv.messages.head? = some m ∧
      sampleConv.title = m.content.take 50 ++ "...".toList :=
  ⟨by decide, C5_group_titles gapMs [mkMsg 0 "ann" "" 0 "Uncategorized"] sampleConv (by decide)⟩

/-- C6 counterexample: on an input that is not sorted ascending by
timestamp, `groupIntoConversations` does not fail: it silently returns a
segmentation (of the sorted sequence) — no invalid-input error exists in
the code. -/
theorem C6_counterexample :
    ¬ SortedByTs [mkMsg 2 "bob" "b" 100 "Uncategorized", mkMsg 1 "ann" "a" 0 "Uncategorized"] ∧
    groupIntoConversations
        [mkMsg 2 "bob" "b" 100 "Uncategorized", mkMsg 1 "ann" "a" 0 "Uncategorized"] =
      [{ title := "a...".toList
       , messages := [mkMsg 1 "ann" "a" 0 "Uncategorized", mkMsg 2 "bob" "b" 100 "Uncategorized"]
       , participants := ["ann", "bob"]
       , tags := ["Uncategorized"] }] :=
  ⟨by decide, by decide⟩

/-- C6 amended: the segmenter never signals an error; on any input,
sorted or not, it first sorts the items ascending by timestamp (a
permutation of the input) and returns groups whose concatenated message
lists are exactly that sorted sequence. -/
theorem C6_no_error_on_unsorted (msgs : List Msg) :
    concatMessages (groupIntoConversations msgs) = sortByTs msgs ∧
    List.Perm (sortByTs msgs) msgs ∧
    SortedByTs (sortByTs msgs) :=
  ⟨segmentMsgs_join gapMs (sortByTs msgs), List.perm_insertionSort tsLe msgs,
    List.sorted_insertionSort tsLe msgs⟩

/-- C7 counterexample: the caller array is not left as it was passed —
after the call the sequence observed by the caller differs from the input
(the sort happened in place). -/
theorem C7_counterexample :
    (groupIntoConversationsRun
        [mkMsg 5 "eve" "later" 900000 "Uncategorized", mkMsg 4 "dan" "earlier" 0 "Uncategorized"]).1 ≠
      [mkMsg 5 "eve" "later" 900000 "Uncategorized", mkMsg 4 "dan" "earlier" 0 "Uncategorized"] := by
  decide

/-- C7 amended: the segmenter re-sorts its input in place: after the call
the caller sequence is the stable sort of the input by ascending
timestamp — a permutation of the input, sorted, and equal to the input
exactly when the input was already sorted — and the returned groups are
the segmentation of that sorted sequence, not of the order as given. -/
theorem C7_sorts_in_place (msgs : List Msg) :
    List.Perm (groupIntoConversationsRun msgs).1 msgs ∧
    SortedByTs (groupIntoConversationsRun msgs).1 ∧
    (SortedByTs msgs → (groupIntoConversationsRun msgs).1 = msgs) ∧
    (groupIntoConversationsRun msgs).2 = segmentMsgs gapMs (groupIntoConversationsRun msgs).1 :=
  ⟨List.perm_insertionSort tsLe msgs, List.sorted_insertionSort tsLe msgs,
    fun hs => List.Sorted.insertionSort_eq hs, rfl⟩

theorem C7_sorts_in_place_witness :
    (groupIntoConversationsRun [mkMsg 0 "ann" "a" 0 "Uncategorized"]).1 =
      [mkMsg 0 "ann" "a" 0 "Uncategorized"] :=
  (C7_sorts_in_place [mkMsg 0 "ann" "a" 0 "Uncategorized"]).2.2.1 (by decide)

/-- C8: when every item carries the tag computed by classifying its own
text (as the export pipeline does), every group returned by
`groupIntoConversations` has `tags` equal — as a duplicate-free set — to
the labels of its member items classified independently, and
`participants` equal — as a duplicate-free set — to the distinct authors
of its member items. -/
theorem C8_tags_participants (msgs : List Msg)
    (htag : ∀ m ∈ msgs, m.tag = classifyMessage m.content) :
    ∀ c ∈ groupIntoConversations msgs,
      c.tags.Nodup ∧ (∀ l, l ∈ c.tags ↔ ∃ m ∈ c.messages, classifyMessage m.content = l) ∧
      c.participants.Nodup ∧ (∀ a, a ∈ c.participants ↔ ∃ m ∈ c.messages, m.author = a) := by
  intro c hc
  obtain ⟨hp, hpm, ht, htm⟩ := segmentMsgs_sets gapMs (sortByTs msgs) c hc
  have hsub : ∀ m ∈ c.messages, m ∈ msgs := by
    intro m hm
    have hmem : m ∈ concatMessages (segmentMsgs gapMs (sortByTs msgs)) := by
      unfold concatMessages
      exact List.mem_flatMap.mpr ⟨c, hc, hm⟩
    rw [segmentMsgs_join] at hmem
    exact (List.perm_insertionSort tsLe msgs).mem_iff.mp hmem
  refine ⟨ht, ?_, hp, hpm⟩
  intro l
  rw [htm l]
  constructor
  · rintro ⟨m, hm, rfl⟩
    exact ⟨m, hm, (htag m (hsub m hm)).symm⟩
  · rintro ⟨m, hm, hl⟩
    exact ⟨m, hm, by rw [htag m (hsub m hm), hl]⟩

theorem C8_tags_participants_witness :
    (∀ m ∈ [mkMsg 0 "ann" "new code" 0 "Development", mkMsg 1 "ann" "a bug" 9 "Development"],
      m.tag = classifyMessage m.content) ∧
    ∀ c ∈ groupIntoConversations
        [mkMsg 0 "ann" "new code" 0 "Development", mkMsg 1 "ann" "a bug" 9 "Development"],
      c.tags.Nodup ∧ (∀ l, l ∈ c.tags ↔ ∃ m ∈ c.messages, classifyMessage m.content = l) ∧
      c.participants.Nodup ∧ (∀ a, a ∈ c.participants ↔ ∃ m ∈ c.messages, m.author = a) :=
  ⟨by decide,
    C8_tags_participants
      [mkMsg 0 "ann" "new code" 0 "Development", mkMsg 1 "ann" "a bug" 9 "Development"]
      (by decide)⟩

/-- C9: the classifier is total and returns the sentinel label exactly
when no rule of the table matches the lower-cased text; in particular the
empty text matches no rule of the configured table and is classified by
the sentinel. -/
theorem C9_sentinel (content : List Char) :
    (classifyMessage content = "Uncategorized" ↔
      ∀ q ∈ TAG_RULES, ruleMatches q.2 (toLowerStr content) = false) ∧
    classifyMessage "".toList = "Uncategorized" :=
  ⟨classifyWith_eq_sentinel TAG_RULES content (by decide), by decide⟩

theorem C9_sentinel_witness :
    classifyMessage "zzz".toList = "Uncategorized" :=
  ((C9_sentinel "zzz".toList).1).mpr (by decide)

/-- C10 counterexample: a request that carries the signature header with
the empty-string value — which differs from the configured digest — is
not rejected: the empty string is falsy in JS, so the check is skipped
and the payload is forwarded with status 200, contradicting the claim
that any mismatching header value yields 401 without forwarding. -/
theorem C10_counterexample :
    ("" : String) ≠ (fun _ m => m ++ "#digest" : String → String → String) "secret" (id "payload") ∧
    handleNotionWebhook (fun _ m => m ++ "#digest") id "secret" "payload" (some "") =
      { status := 200, forwarded := true } :=
  ⟨by decide, by decide⟩

/-- C10 amended: signature verification runs only when the header is
present with a non-empty value: a request without the header, or with an
empty-string header value, is forwarded unchecked with status 200; a
request with a non-empty header value differing from the digest is
rejected with 401 and not forwarded; a matching value is forwarded with
status 200. -/
theorem C10_signature_gate {P : Type} (hmac : String → String → String)
    (stringify : P → String) (secret : String) (payload : P) (sigHeader : Option String) :
    (sigHeader = none →
      handleNotionWebhook hmac stringify secret payload sigHeader =
        { status := 200, forwarded := true }) ∧
    (sigHeader = some "" →
      handleNotionWebhook hmac stringify secret payload sigHeader =
        { status := 200, forwarded := true }) ∧
    (∀ s, sigHeader = some s → s ≠ "" → hmac secret (stringify payload) ≠ s →
      handleNotionWebhook hmac stringify secret payload sigHeader =
        { status := 401, forwarded := false }) ∧
    (∀ s, sigHeader = some s → hmac secret (stringify payload) = s →
      handleNotionWebhook hmac stringify secret payload sigHeader =
        { status := 200, forwarded := true }) := by
  refine ⟨?_, ?_, ?_, ?_⟩
  · rintro rfl
    rfl
  · rintro rfl
    simp [handleNotionWebhook]
  · rintro s rfl hne hdiff
    simp only [handleNotionWebhook, verifyNotionSignature]
    rw [if_pos]
    exact ⟨hne, by simpa using hdiff⟩
  · rintro s rfl heq
    simp only [handleNotionWebhook, verifyNotionSignature]
    rw [if_neg]
    simp [heq]

theorem C10_signature_gate_witness :
    handleNotionWebhook (fun _ m => m ++ "#digest") id "secret" "payload" (some "bad") =
      { status := 401, forwarded := false } :=
  ((C10_signature_gate (fun _ m => m ++ "#digest") id "secret" "payload" (some "bad")).2.2.1)
    "bad" rfl (by decide) (by decide)
